import Mathlib

/-!
# Verification of `Useful_modules` (`src/filler.py`)

Shallow embedding of the `Filler` class.  A table is a pandas
`DataFrame` restricted to what the code touches: an association list of
named columns, each column a list of cells; a cell is `Option ℚ`, with
`none` standing for `NaN` (missing).  Rational numbers stand in for the
float engine; the one operation that has no rational counterpart,
`Series.std`'s square root, is taken as an explicit function parameter
`sq : ℚ → ℚ` so that every statement is quantified over the numeric
engine's square root.

Python's `random.choices(population, weights)` is modelled by
`choicesOne`: given the value drawn by `random.random()` (an element of
`[0,1)` supplied by an ambient stream `rs : Nat → ℚ`), it multiplies by
the total weight and locates the result in the list of cumulative
weights, exactly as CPython's `random.choices` does.  Failure modes
(`KeyError` on a missing column or empty mode, `IndexError` on an empty
sampling population, `TypeError`/`ValueError` from argument validation)
are explicit `PyError` values.
-/

namespace Filler

/-- A cell of a numeric column: `none` is `NaN`. -/
abbrev Cell := Option ℚ

/-- A column of a `DataFrame`. -/
abbrev Col := List Cell

/-- A `DataFrame`: named columns (labels are unique in pandas;
lookup takes the first match). -/
abbrev Table := List (String × Col)

/-- `self.data[c]` — column lookup, `none` models `KeyError`. -/
def getCol (t : Table) (c : String) : Option Col :=
  match t with
  | [] => none
  | (n, col) :: rest => if n = c then some col else getCol rest c

/-- In-place update of column `c` (first matching label). -/
def setCol (t : Table) (c : String) (col : Col) : Table :=
  match t with
  | [] => []
  | (n, col0) :: rest =>
    if n = c then (n, col) :: rest else (n, col0) :: setCol rest c col

/-- The cell of column `c` at row `i` (outer `none`: no such column;
`some none`: the cell is `NaN`). -/
def cellAt (t : Table) (c : String) (i : Nat) : Option Cell :=
  (getCol t c).bind (fun col => col[i]?)

/-- The non-missing values of a column, in order — every pandas
aggregation below skips `NaN` (`skipna=True` defaults). -/
def presentVals : Col → List ℚ
  | [] => []
  | none :: cs => presentVals cs
  | some x :: cs => x :: presentVals cs

/-- `Series.mean()`: arithmetic mean of the non-missing values,
`NaN` (here `none`) on an empty input. -/
def meanQ (xs : List ℚ) : Option ℚ :=
  if xs = [] then none else some (xs.sum / xs.length)

/-- Insert into a `≤`-sorted list. -/
def insertSorted (x : ℚ) : List ℚ → List ℚ
  | [] => [x]
  | y :: ys => if x ≤ y then x :: y :: ys else y :: insertSorted x ys

/-- Ascending sort (insertion sort). -/
def sortQ (xs : List ℚ) : List ℚ :=
  xs.foldr insertSorted []

/-- `Series.quantile(q)` with the default linear-interpolation method:
with `n` present values sorted ascending, the quantile sits at fractional
position `h = q * (n - 1)` and is interpolated between positions
`⌊h⌋` and `⌈h⌉`.  `NaN` on an empty input. -/
def quantileQ (xs : List ℚ) (q : ℚ) : Option ℚ :=
  let s := sortQ xs
  match s with
  | [] => none
  | _ :: _ =>
    let n := s.length
    let h : ℚ := q * ((n : ℚ) - 1)
    let lo : Nat := (Int.floor h).toNat
    let hi : Nat := (Int.ceil h).toNat
    let a := s.getD lo 0
    let b := s.getD hi 0
    some (a + (h - (lo : ℚ)) * (b - a))

/-- `Series.median()` = the 0.5 linear-interpolation quantile. -/
def medianQ (xs : List ℚ) : Option ℚ :=
  quantileQ xs (1/2)

/-- Distinct values in first-appearance order (the order pandas uses
for ties). -/
def dedupFirst : List ℚ → List ℚ
  | [] => []
  | x :: xs => x :: (dedupFirst xs).filter (fun y => y ≠ x)

/-- Candidates for `Series.mode()`: the distinct values of maximal
multiplicity. -/
def modalCands (xs : List ℚ) : List ℚ :=
  (dedupFirst xs).filter
    (fun v => (dedupFirst xs).all (fun w => xs.count w ≤ xs.count v))

/-- Minimum of a list of rationals. -/
def listMin : List ℚ → Option ℚ
  | [] => none
  | x :: xs => some (xs.foldl min x)

/-- `Series.mode()[0]`: pandas sorts the modal values ascending, so
`[0]` is the least value of maximal multiplicity; `KeyError`
(here `none`) when there are no present values. -/
def modeFirst (xs : List ℚ) : Option ℚ :=
  listMin (modalCands xs)

/-- Stable insertion by descending multiplicity in `xs`. -/
def insertByCount (xs : List ℚ) (v : ℚ) : List ℚ → List ℚ
  | [] => [v]
  | w :: ws =>
    if xs.count w < xs.count v then v :: w :: ws else w :: insertByCount xs v ws

/-- `Series.value_counts(normalize=True)`: distinct non-missing values
sorted by descending frequency (ties in first-appearance order), each
paired with its normalized frequency `count / n`. -/
def valueCountsNorm (xs : List ℚ) : List (ℚ × ℚ) :=
  let d := (dedupFirst xs).foldr (insertByCount xs) []
  d.map (fun v => (v, (xs.count v : ℚ) / (xs.length : ℚ)))

/-- Running totals, as `itertools.accumulate` inside `random.choices`. -/
def cumsum (acc : ℚ) : List ℚ → List ℚ
  | [] => []
  | w :: ws => (acc + w) :: cumsum (acc + w) ws

/-- One call of `random.choices(population, weights)` (k = 1), given the
value `r ∈ [0,1)` produced by `random.random()`: form the cumulative
weights, fail (`IndexError`) when they are empty, fail (`ValueError`)
when the total is not positive, and otherwise return
`population[bisect_right(cum_weights, r * total, 0, len - 1)]`. -/
def choicesOne (pop : List ℚ) (wts : List ℚ) (r : ℚ) : Option ℚ :=
  match (cumsum 0 wts).getLast? with
  | none => none
  | some total =>
    if total ≤ 0 then none
    else
      let rt := r * total
      let idx := min ((cumsum 0 wts).countP (fun x => decide (x ≤ rt)))
        (pop.length - 1)
      pop[idx]?

/-- `n` successive draws (one `choices` call per missing slot), consuming
the random stream `rs` from position `ctr` on. -/
def drawsN (ratio : List (ℚ × ℚ)) (rs : Nat → ℚ) (ctr : Nat) :
    Nat → Option (List ℚ)
  | 0 => some []
  | n + 1 =>
    match choicesOne (ratio.map Prod.fst) (ratio.map Prod.snd) (rs ctr),
        drawsN ratio rs (ctr + 1) n with
    | some v, some vs => some (v :: vs)
    | _, _ => none

/-- `self.data.loc[nans, c] = v`: every `NaN` cell becomes `v`
(assigning `NaN` itself leaves the cell missing). -/
def fillNone (col : Col) (v : Cell) : Col :=
  col.map (fun x => if x = none then v else x)

/-- `self.data.loc[nans, c] = rdbr`: the drawn values are assigned
positionally to the missing cells, in row order. -/
def fillNoneSeq : Col → List ℚ → Col
  | [], _ => []
  | none :: cs, v :: vs => some v :: fillNoneSeq cs vs
  | none :: cs, [] => none :: fillNoneSeq cs []
  | some x :: cs, vs => some x :: fillNoneSeq cs vs

/-- `nans.sum()` — number of missing cells. -/
def nanCount (col : Col) : Nat :=
  col.count none

/-- `self.data.loc[outliers, c] = v`: the constant `v` at every
mask-`true` position. -/
def fillMask (col : Col) (mask : List Bool) (v : Cell) : Col :=
  List.zipWith (fun x b => if b then v else x) col mask

/-- `self.data.loc[outliers, c] = rdbr`: the drawn values assigned
positionally to the mask-`true` positions. -/
def fillMaskSeq : Col → List Bool → List ℚ → Col
  | [], _, _ => []
  | _ :: cs, true :: bs, v :: vs => some v :: fillMaskSeq cs bs vs
  | x :: cs, true :: bs, [] => x :: fillMaskSeq cs bs []
  | x :: cs, false :: bs, vs => x :: fillMaskSeq cs bs vs
  | x :: cs, [], _ => x :: cs

/-- `self.data.loc[~outliers, c]` as a statistics basis: the
non-missing values at unmasked positions (the `NaN`s it still carries
are skipped by every aggregation applied to it). -/
def unmaskedPresent (col : Col) (mask : List Bool) : List ℚ :=
  presentVals (List.zipWith (fun x b => if b then none else x) col mask)

/-- `self.data.loc[outliers, c].size` — number of flagged positions. -/
def maskCount (mask : List Bool) : Nat :=
  mask.count true

/-- A Python value in `method` / `k` position: the embedding keeps the
three types the code tests for (`str`, `int`, `float`) and lumps every
other type into `other`. -/
inductive PyVal where
  | str (s : String)
  | int (n : ℤ)
  | float (q : ℚ)
  | other
deriving DecidableEq

/-- The numeric content of `method` when `type(method)` is `int` or
`float`. -/
def PyVal.num? : PyVal → Option ℚ
  | .int n => some (n : ℚ)
  | .float q => some q
  | _ => none

/-- The exceptions the code can raise. -/
inductive PyError where
  | typeError
  | valueError
  | keyError
  | indexError
deriving DecidableEq

/-- `['mean', 'median', 'mode', 'rdbr']` — `fillnan`'s tokens. -/
def allowedNan : List String := ["mean", "median", "mode", "rdbr"]

/-- `['mean', 'median', 'rdbr']` — the outlier methods' tokens. -/
def allowedOut : List String := ["mean", "median", "rdbr"]

/-- The `method` checks at the top of each operation: `TypeError`
unless `type(method) ∈ [str, int, float]`, then `ValueError` for a
string outside the allowed set. -/
def validateMethod (method : PyVal) (allowed : List String) : Option PyError :=
  match method with
  | .other => some .typeError
  | .str s => if s ∈ allowed then none else some .valueError
  | _ => none

/-- The `k` check of the outlier operations: `TypeError` unless
`type(k) ∈ [int, float]`. -/
def validateK (k : PyVal) : Option PyError :=
  match k with
  | .int _ => none
  | .float _ => none
  | _ => some .typeError

/-- The body of `fillnan`'s loop for one column: dispatch on `method`
exactly as the if-chain does (a value that passes none of the tests
leaves the column unchanged).  `ctr` is the position in the random
stream; only `rdbr` consumes draws. -/
def fillnanCol (method : PyVal) (rs : Nat → ℚ) (col : Col) (ctr : Nat) :
    Except PyError (Col × Nat) :=
  match method with
  | .int n => .ok (fillNone col (some (n : ℚ)), ctr)
  | .float q => .ok (fillNone col (some q), ctr)
  | .str s =>
    if s = "mean" then .ok (fillNone col (meanQ (presentVals col)), ctr)
    else if s = "median" then .ok (fillNone col (medianQ (presentVals col)), ctr)
    else if s = "mode" then
      match modeFirst (presentVals col) with
      | some v => .ok (fillNone col (some v), ctr)
      | none => .error .keyError
    else if s = "rdbr" then
      let ratio := valueCountsNorm (presentVals col)
      let n := nanCount col
      match drawsN ratio rs ctr n with
      | some vs => .ok (fillNoneSeq col vs, ctr + n)
      | none => .error .indexError
    else .ok (col, ctr)
  | .other => .ok (col, ctr)

/-- `filloutlier_iqr`'s outlier mask:
`(self.data[c] < q1 - iqr) | (self.data[c] > q3 + iqr)` with
`iqr = k * (q3 - q1)`.  A comparison with `NaN` is `False`, so missing
cells are never flagged, and when the column has no present values the
quantiles are `NaN` and nothing is flagged. -/
def outlierMaskIqr (col : Col) (k : ℚ) : List Bool :=
  match quantileQ (presentVals col) (1/4), quantileQ (presentVals col) (3/4) with
  | some q1, some q3 =>
    let w := k * (q3 - q1)
    col.map (fun x =>
      match x with
      | none => false
      | some v => decide (v < q1 - w) || decide (v > q3 + w))
  | _, _ => col.map (fun _ => false)

/-- The shared fill step of both outlier operations, given the already
computed mask: statistics are taken over the unmasked part of the
column and written at the masked positions. -/
def fillOutliersCol (method : PyVal) (rs : Nat → ℚ) (mask : List Bool)
    (col : Col) (ctr : Nat) : Except PyError (Col × Nat) :=
  let noOut := unmaskedPresent col mask
  match method with
  | .int n => .ok (fillMask col mask (some (n : ℚ)), ctr)
  | .float q => .ok (fillMask col mask (some q), ctr)
  | .str s =>
    if s = "mean" then .ok (fillMask col mask (meanQ noOut), ctr)
    else if s = "median" then .ok (fillMask col mask (medianQ noOut), ctr)
    else if s = "rdbr" then
      let n := maskCount mask
      match drawsN (valueCountsNorm noOut) rs ctr n with
      | some vs => .ok (fillMaskSeq col mask vs, ctr + n)
      | none => .error .indexError
    else .ok (col, ctr)
  | .other => .ok (col, ctr)

/-- The body of `filloutlier_iqr`'s loop for one column. -/
def filloutlierIqrCol (method : PyVal) (k : ℚ) (rs : Nat → ℚ) (col : Col)
    (ctr : Nat) : Except PyError (Col × Nat) :=
  fillOutliersCol method rs (outlierMaskIqr col k) col ctr

/-- `Series.std()`: sample standard deviation (`ddof=1`) of the
non-missing values; `NaN` with fewer than two of them.  The square
root of the float engine is the parameter `sq`. -/
def stdQ (sq : ℚ → ℚ) (xs : List ℚ) : Option ℚ :=
  match meanQ xs with
  | none => none
  | some m =>
    if xs.length ≤ 1 then none
    else some (sq ((xs.map (fun x => (x - m) ^ 2)).sum / ((xs.length : ℚ) - 1)))

/-- `filloutlier_sigma`'s outlier mask:
`(self.data[c] < mean - k*std) | (self.data[c] > mean + k*std)`;
as with the IQR mask, comparisons with `NaN` are `False`. -/
def outlierMaskSigma (sq : ℚ → ℚ) (col : Col) (k : ℚ) : List Bool :=
  match meanQ (presentVals col), stdQ sq (presentVals col) with
  | some m, some s =>
    let w := k * s
    col.map (fun x =>
      match x with
      | none => false
      | some v => decide (v < m - w) || decide (v > m + w))
  | _, _ => col.map (fun _ => false)

/-- The body of `filloutlier_sigma`'s loop for one column. -/
def filloutlierSigmaCol (sq : ℚ → ℚ) (method : PyVal) (k : ℚ) (rs : Nat → ℚ)
    (col : Col) (ctr : Nat) : Except PyError (Col × Nat) :=
  fillOutliersCol method rs (outlierMaskSigma sq col k) col ctr

/-- `for c in self.columns: ...`, threading the table and the random
stream position.  The loop mutates `self.data` column by column, so on
an exception the partially mutated table is kept alongside the error. -/
def colLoop (g : Col → Nat → Except PyError (Col × Nat)) :
    List String → Table → Nat → Table × Nat × Option PyError
  | [], t, ctr => (t, ctr, none)
  | c :: cs, t, ctr =>
    match getCol t c with
    | none => (t, ctr, some .keyError)
    | some col =>
      match g col ctr with
      | .error e => (t, ctr, some e)
      | .ok (col', ctr') => colLoop g cs (setCol t c col') ctr'

/-- The state of a `Filler` instance: the privately held table and the
configured column labels. -/
structure State where
  data : Table
  columns : List String
deriving DecidableEq

/-- `Filler.fillnan(method)`: validate, then fill each configured
column's missing cells.  Returns the (possibly partially) mutated table
together with the raised exception, if any; the Python method returns
`self.data` on the `none` path. -/
def fillnan (f : State) (method : PyVal) (rs : Nat → ℚ) :
    Table × Option PyError :=
  match validateMethod method allowedNan with
  | some e => (f.data, some e)
  | none =>
    let r := colLoop (fillnanCol method rs) f.columns f.data 0
    (r.1, r.2.2)

/-- `Filler.filloutlier_iqr(method, k)`: validate `method`'s type, then
`k`'s type, then `method`'s value, then fill each configured column's
IQR outliers. -/
def filloutlier_iqr (f : State) (method k : PyVal) (rs : Nat → ℚ) :
    Table × Option PyError :=
  match method with
  | .other => (f.data, some .typeError)
  | _ =>
    match validateK k with
    | some e => (f.data, some e)
    | none =>
      match validateMethod method allowedOut with
      | some e => (f.data, some e)
      | none =>
        let kq := k.num?.getD 0
        let r := colLoop (filloutlierIqrCol method kq rs) f.columns f.data 0
        (r.1, r.2.2)

/-- `Filler.filloutlier_sigma(method, k)`: same validation order as the
IQR variant, sigma-rule mask. -/
def filloutlier_sigma (sq : ℚ → ℚ) (f : State) (method k : PyVal)
    (rs : Nat → ℚ) : Table × Option PyError :=
  match method with
  | .other => (f.data, some .typeError)
  | _ =>
    match validateK k with
    | some e => (f.data, some e)
    | none =>
      match validateMethod method allowedOut with
      | some e => (f.data, some e)
      | none =>
        let kq := k.num?.getD 0
        let r := colLoop (filloutlierSigmaCol sq method kq rs) f.columns f.data 0
        (r.1, r.2.2)

/-- A heap of tables, addressed by index: the caller's `DataFrame`
objects and each instance's private copy live here, so object identity
and in-place mutation are observable. -/
abbrev Heap := List Table

/-- A constructed instance: the address of its private table and the
stored `columns` reference. -/
structure Ref where
  addr : Nat
  columns : List String

/-- `Filler.__init__(data, columns)`: `self.data = data.copy(deep=True)`
allocates a fresh cell holding a copy of the caller's table at `a`;
`self.columns = columns` keeps the reference. -/
def init (h : Heap) (a : Nat) (cols : List String) : Heap × Ref :=
  (h ++ [h.getD a []], ⟨h.length, cols⟩)

/-- One method call on an instance, with its arguments. -/
inductive Op where
  | nan (method : PyVal) (rs : Nat → ℚ)
  | iqr (method k : PyVal) (rs : Nat → ℚ)
  | sigma (sq : ℚ → ℚ) (method k : PyVal) (rs : Nat → ℚ)

/-- Run one call: read the instance's table, apply the operation, and
write the resulting table (partially mutated, on an exception) back to
the instance's own cell. -/
def runOp (h : Heap) (fr : Ref) (op : Op) : Heap :=
  let t := h.getD fr.addr []
  let t' :=
    match op with
    | .nan m rs => (fillnan ⟨t, fr.columns⟩ m rs).1
    | .iqr m k rs => (filloutlier_iqr ⟨t, fr.columns⟩ m k rs).1
    | .sigma sq m k rs => (filloutlier_sigma sq ⟨t, fr.columns⟩ m k rs).1
  h.set fr.addr t'

/-- A sequence of calls on the same instance. -/
def runOps (h : Heap) (fr : Ref) : List Op → Heap
  | [] => h
  | op :: ops => runOps (runOp h fr op) fr ops

/-! ### Table access lemmas -/

theorem getCol_setCol_self (t : Table) (c : String) (col : Col)
    (h : (getCol t c).isSome) : getCol (setCol t c col) c = some col := by
  induction t with
  | nil => simp [getCol] at h
  | cons p rest ih =>
    obtain ⟨n, col0⟩ := p
    by_cases hn : n = c
    · simp [getCol, setCol, hn]
    · simp [getCol, setCol, hn] at h ⊢
      exact ih h

theorem getCol_setCol_ne (t : Table) (c d : String) (col : Col)
    (h : c ≠ d) : getCol (setCol t c col) d = getCol t d := by
  induction t with
  | nil => simp [setCol]
  | cons p rest ih =>
    obtain ⟨n, col0⟩ := p
    by_cases hn : n = c
    · subst hn
      simp [getCol, setCol, h]
    · simp [getCol, setCol, hn]
      split <;> simp [ih]

theorem setCol_self (t : Table) (c : String) (col : Col)
    (h : getCol t c = some col) : setCol t c col = t := by
  induction t with
  | nil => simp [setCol]
  | cons p rest ih =>
    obtain ⟨n, col0⟩ := p
    by_cases hn : n = c
    · subst hn
      simp [getCol] at h
      simp [setCol, h]
    · simp [getCol, hn] at h
      simp [setCol, hn, ih h]

/-! ### Fill primitive lemmas -/

theorem fillNone_get_none (col : Col) (v : Cell) (i : Nat)
    (h : col[i]? = some none) : (fillNone col v)[i]? = some v := by
  simp only [fillNone, List.getElem?_map, h, Option.map_some']
  simp

theorem fillNone_get_some (col : Col) (v : Cell) (i : Nat) (x : ℚ)
    (h : col[i]? = some (some x)) :
    (fillNone col v)[i]? = some (some x) := by
  simp only [fillNone, List.getElem?_map, h, Option.map_some']
  simp

theorem fillNone_none (col : Col) : fillNone col none = col := by
  induction col with
  | nil => rfl
  | cons x cs ih =>
    cases x <;> simp [fillNone] at ih ⊢ <;> exact ih

theorem none_not_mem_fillNone (col : Col) (v : ℚ) :
    none ∉ fillNone col (some v) := by
  induction col with
  | nil => simp [fillNone]
  | cons x cs ih =>
    cases x <;> simp [fillNone] at ih ⊢ <;> exact ih

theorem fillNone_of_not_mem (col : Col) (v : Cell) (h : none ∉ col) :
    fillNone col v = col := by
  induction col with
  | nil => rfl
  | cons x cs ih =>
    cases x with
    | none => simp at h
    | some y =>
      simp at h
      simp [fillNone] at ih ⊢
      exact ih h

theorem fillNoneSeq_get_some (col : Col) (vs : List ℚ) (i : Nat) (x : ℚ)
    (h : col[i]? = some (some x)) :
    (fillNoneSeq col vs)[i]? = some (some x) := by
  induction col generalizing vs i with
  | nil => simp at h
  | cons y cs ih =>
    cases y with
    | none =>
      cases vs with
      | nil =>
        cases i with
        | zero => simp at h
        | succ j => simpa [fillNoneSeq] using ih [] j (by simpa using h)
      | cons v vs' =>
        cases i with
        | zero => simp at h
        | succ j => simpa [fillNoneSeq] using ih vs' j (by simpa using h)
    | some z =>
      cases i with
      | zero =>
        simp at h
        simp [fillNoneSeq, h]
      | succ j => simpa [fillNoneSeq] using ih vs j (by simpa using h)

theorem fillMask_get_false (col : Col) (mask : List Bool) (v : Cell) (i : Nat)
    (h : mask[i]? = some false) :
    (fillMask col mask v)[i]? = col[i]? := by
  induction col generalizing mask i with
  | nil => simp [fillMask]
  | cons x cs ih =>
    cases mask with
    | nil => simp at h
    | cons b bs =>
      cases i with
      | zero =>
        simp at h
        simp [fillMask, h]
      | succ j =>
        simp at h
        simpa [fillMask] using ih bs j h

theorem fillMaskSeq_get_false (col : Col) (mask : List Bool) (vs : List ℚ)
    (i : Nat) (h : mask[i]? = some false) :
    (fillMaskSeq col mask vs)[i]? = col[i]? := by
  induction col generalizing mask vs i with
  | nil => simp [fillMaskSeq]
  | cons x cs ih =>
    cases mask with
    | nil => simp at h
    | cons b bs =>
      cases i with
      | zero =>
        simp at h
        subst h
        cases vs <;> simp [fillMaskSeq]
      | succ j =>
        simp at h
        cases b with
        | true =>
          cases vs with
          | nil => simpa [fillMaskSeq] using ih bs [] j h
          | cons v vs' => simpa [fillMaskSeq] using ih bs vs' j h
        | false => simpa [fillMaskSeq] using ih bs vs j h

/-! ### Mask lemmas: `NaN` cells are never flagged, flagged cells are
present -/

theorem outlierMaskIqr_get_none (col : Col) (k : ℚ) (i : Nat)
    (h : col[i]? = some none) : (outlierMaskIqr col k)[i]? = some false := by
  unfold outlierMaskIqr
  split <;> (rw [List.getElem?_map, h]; rfl)

theorem outlierMaskSigma_get_none (sq : ℚ → ℚ) (col : Col) (k : ℚ) (i : Nat)
    (h : col[i]? = some none) : (outlierMaskSigma sq col k)[i]? = some false := by
  unfold outlierMaskSigma
  split <;> (rw [List.getElem?_map, h]; rfl)

theorem outlierMaskIqr_get_true (col : Col) (k : ℚ) (i : Nat)
    (h : (outlierMaskIqr col k)[i]? = some true) :
    ∃ v, col[i]? = some (some v) := by
  unfold outlierMaskIqr at h
  revert h
  split
  · simp only [List.getElem?_map]
    cases hc : col[i]? with
    | none => simp
    | some x =>
      cases x with
      | none => simp
      | some v => exact fun _ => ⟨v, rfl⟩
  · simp only [List.getElem?_map]
    cases hc : col[i]? <;> simp

theorem outlierMaskSigma_get_true (sq : ℚ → ℚ) (col : Col) (k : ℚ) (i : Nat)
    (h : (outlierMaskSigma sq col k)[i]? = some true) :
    ∃ v, col[i]? = some (some v) := by
  unfold outlierMaskSigma at h
  revert h
  split
  · simp only [List.getElem?_map]
    cases hc : col[i]? with
    | none => simp
    | some x =>
      cases x with
      | none => simp
      | some v => exact fun _ => ⟨v, rfl⟩
  · simp only [List.getElem?_map]
    cases hc : col[i]? <;> simp

/-! ### Shape of the per-column fill steps -/

/-- A successful `fillnan` column step is a constant fill of the
missing cells, a positional fill with drawn values, or the identity. -/
theorem fillnanCol_shape (m : PyVal) (rs : Nat → ℚ) (col : Col)
    (ctr : Nat) (col' : Col) (ctr' : Nat)
    (h : fillnanCol m rs col ctr = .ok (col', ctr')) :
    (∃ v, col' = fillNone col v) ∨
      (∃ vs, drawsN (valueCountsNorm (presentVals col)) rs ctr
          (nanCount col) = some vs ∧ col' = fillNoneSeq col vs) ∨
      col' = col := by
  cases m with
  | int n =>
    simp [fillnanCol] at h
    exact .inl ⟨some (n : ℚ), h.1.symm⟩
  | float q =>
    simp [fillnanCol] at h
    exact .inl ⟨some q, h.1.symm⟩
  | other =>
    simp [fillnanCol] at h
    exact .inr (.inr h.1.symm)
  | str s =>
    by_cases h1 : s = "mean"
    · simp [fillnanCol, h1] at h
      exact .inl ⟨_, h.1.symm⟩
    · by_cases h2 : s = "median"
      · simp [fillnanCol, h1, h2] at h
        exact .inl ⟨_, h.1.symm⟩
      · by_cases h3 : s = "mode"
        · simp only [fillnanCol, h1, h2, h3, if_false, if_true] at h
          cases hm : modeFirst (presentVals col) with
          | none => rw [hm] at h; cases h
          | some v =>
            rw [hm] at h
            simp at h
            exact .inl ⟨some v, h.1.symm⟩
        · by_cases h4 : s = "rdbr"
          · simp only [fillnanCol, h1, h2, h3, h4, if_false, if_true] at h
            cases hd : drawsN (valueCountsNorm (presentVals col)) rs ctr
                (nanCount col) with
            | none => rw [hd] at h; cases h
            | some vs =>
              rw [hd] at h
              simp at h
              exact .inr (.inl ⟨vs, rfl, h.1.symm⟩)
          · simp [fillnanCol, h1, h2, h3, h4] at h
            exact .inr (.inr h.1.symm)

/-- A successful outlier column step writes only at masked positions:
it is a constant fill of the mask, a positional fill of the mask, or
the identity. -/
theorem fillOutliersCol_shape (m : PyVal) (rs : Nat → ℚ) (mask : List Bool)
    (col : Col) (ctr : Nat) (col' : Col) (ctr' : Nat)
    (h : fillOutliersCol m rs mask col ctr = .ok (col', ctr')) :
    (∃ v, col' = fillMask col mask v) ∨
      (∃ vs, drawsN (valueCountsNorm (unmaskedPresent col mask)) rs ctr
          (maskCount mask) = some vs ∧ col' = fillMaskSeq col mask vs) ∨
      col' = col := by
  cases m with
  | int n =>
    simp [fillOutliersCol] at h
    exact .inl ⟨some (n : ℚ), h.1.symm⟩
  | float q =>
    simp [fillOutliersCol] at h
    exact .inl ⟨some q, h.1.symm⟩
  | other =>
    simp [fillOutliersCol] at h
    exact .inr (.inr h.1.symm)
  | str s =>
    by_cases h1 : s = "mean"
    · simp [fillOutliersCol, h1] at h
      exact .inl ⟨_, h.1.symm⟩
    · by_cases h2 : s = "median"
      · simp [fillOutliersCol, h1, h2] at h
        exact .inl ⟨_, h.1.symm⟩
      · by_cases h3 : s = "rdbr"
        · simp only [fillOutliersCol, h1, h2, h3, if_false, if_true] at h
          cases hd : drawsN (valueCountsNorm (unmaskedPresent col mask)) rs ctr
              (maskCount mask) with
          | none => rw [hd] at h; cases h
          | some vs =>
            rw [hd] at h
            simp at h
            exact .inr (.inl ⟨vs, rfl, h.1.symm⟩)
        · simp [fillOutliersCol, h1, h2, h3] at h
          exact .inr (.inr h.1.symm)

/-! ### Loop lemmas -/

theorem colLoop_not_mem (g : Col → Nat → Except PyError (Col × Nat)) :
    ∀ (cs : List String) (t : Table) (ctr : Nat) (c : String), c ∉ cs →
      getCol (colLoop g cs t ctr).1 c = getCol t c := by
  intro cs
  induction cs with
  | nil => intro t ctr c _; rfl
  | cons c0 cs' ih =>
    intro t ctr c h
    simp at h
    cases hg : getCol t c0 with
    | none => simp [colLoop, hg]
    | some col =>
      cases hr : g col ctr with
      | error e => simp [colLoop, hg, hr]
      | ok p =>
        obtain ⟨col', ctr'⟩ := p
        simp only [colLoop, hg, hr]
        rw [ih _ _ _ h.2, getCol_setCol_ne _ _ _ _ (Ne.symm h.1)]

/-- With distinct column labels, a successful run visits each
configured column exactly once, applying the step to that column's
pre-call contents. -/
theorem colLoop_ok_visit (g : Col → Nat → Except PyError (Col × Nat)) :
    ∀ (cs : List String) (t : Table) (ctr : Nat) (c : String),
      cs.Nodup → c ∈ cs → (colLoop g cs t ctr).2.2 = none →
      ∃ col ctr0 col' ctr1, getCol t c = some col ∧
        g col ctr0 = .ok (col', ctr1) ∧
        getCol (colLoop g cs t ctr).1 c = some col' := by
  intro cs
  induction cs with
  | nil => intro t ctr c _ hc; simp at hc
  | cons c0 cs' ih =>
    intro t ctr c hnd hc hok
    cases hg : getCol t c0 with
    | none => simp [colLoop, hg] at hok
    | some col0 =>
      cases hr : g col0 ctr with
      | error e => simp [colLoop, hg, hr] at hok
      | ok p =>
        obtain ⟨col0', ctr0'⟩ := p
        simp only [colLoop, hg, hr] at hok ⊢
        simp at hc
        rcases hc with hc | hc
        · subst hc
          have hnotmem : c ∉ cs' := by simpa using (List.nodup_cons.mp hnd).1
          refine ⟨col0, ctr, col0', ctr0', hg, hr, ?_⟩
          rw [colLoop_not_mem _ _ _ _ _ hnotmem]
          exact getCol_setCol_self _ _ _ (by simp [hg])
        · have hne : c0 ≠ c := by
            rintro rfl
            exact (List.nodup_cons.mp hnd).1 hc
          obtain ⟨col, k0, col', k1, hcol, hstep, hres⟩ :=
            ih (setCol t c0 col0') ctr0' c (List.nodup_cons.mp hnd).2 hc hok
          rw [getCol_setCol_ne _ _ _ _ hne] at hcol
          exact ⟨col, k0, col', k1, hcol, hstep, hres⟩

/-- If every successful step preserves `NaN` cells pointwise, so does
the whole loop — on the partial table too, when the loop stops on an
exception. -/
theorem colLoop_preserve_none (g : Col → Nat → Except PyError (Col × Nat))
    (hg : ∀ (col : Col) (ctr : Nat) (col' : Col) (ctr' : Nat),
      g col ctr = .ok (col', ctr') →
      ∀ (i : Nat), col[i]? = some none → col'[i]? = some none) :
    ∀ (cs : List String) (t : Table) (ctr : Nat) (c : String) (i : Nat),
      cellAt t c i = some none →
      cellAt (colLoop g cs t ctr).1 c i = some none := by
  intro cs
  induction cs with
  | nil => intro t ctr c i h; exact h
  | cons c0 cs' ih =>
    intro t ctr c i h
    cases hg0 : getCol t c0 with
    | none => simpa [colLoop, hg0] using h
    | some col0 =>
      cases hr : g col0 ctr with
      | error e => simpa [colLoop, hg0, hr] using h
      | ok p =>
        obtain ⟨col0', ctr0'⟩ := p
        simp only [colLoop, hg0, hr]
        refine ih _ _ _ _ ?_
        by_cases hc : c0 = c
        · subst hc
          simp [cellAt, hg0] at h
          have h2 := hg _ _ _ _ hr i h
          have hs : (getCol t c0).isSome := Option.isSome_iff_exists.mpr ⟨_, hg0⟩
          simp [cellAt, getCol_setCol_self _ _ _ hs, h2]
        · simpa [cellAt, getCol_setCol_ne _ _ _ _ hc] using h

/-- If every successful step establishes `P` on its output column, a
successful loop leaves every configured column satisfying `P`. -/
theorem colLoop_establish (g : Col → Nat → Except PyError (Col × Nat))
    (P : Col → Prop)
    (hg : ∀ col ctr col' ctr', g col ctr = .ok (col', ctr') → P col') :
    ∀ (cs : List String) (t : Table) (ctr : Nat) (c : String),
      c ∈ cs → (colLoop g cs t ctr).2.2 = none →
      ∃ col', getCol (colLoop g cs t ctr).1 c = some col' ∧ P col' := by
  intro cs
  induction cs with
  | nil => intro t ctr c hc; simp at hc
  | cons c0 cs' ih =>
    intro t ctr c hc hok
    cases hg0 : getCol t c0 with
    | none => simp [colLoop, hg0] at hok
    | some col0 =>
      cases hr : g col0 ctr with
      | error e => simp [colLoop, hg0, hr] at hok
      | ok p =>
        obtain ⟨col0', ctr0'⟩ := p
        simp only [colLoop, hg0, hr] at hok ⊢
        by_cases hmem : c ∈ cs'
        · exact ih _ _ _ hmem hok
        · simp at hc
          rcases hc with hc | hc
          · subst hc
            rw [colLoop_not_mem _ _ _ _ _ hmem]
            exact ⟨col0', getCol_setCol_self _ _ _ (by simp [hg0]), hg _ _ _ _ hr⟩
          · exact absurd hc hmem

/-- A loop whose step is the identity on every configured column (for
all stream positions) returns the table unchanged and succeeds. -/
theorem colLoop_id (g : Col → Nat → Except PyError (Col × Nat)) :
    ∀ (cs : List String) (t : Table) (ctr : Nat),
      (∀ c ∈ cs, ∃ col, getCol t c = some col ∧ ∀ k, g col k = .ok (col, k)) →
      colLoop g cs t ctr = (t, ctr, none) := by
  intro cs
  induction cs with
  | nil => intro t ctr _; rfl
  | cons c0 cs' ih =>
    intro t ctr h
    obtain ⟨col0, hcol0, hid⟩ := h c0 (by simp)
    simp only [colLoop, hcol0, hid ctr]
    rw [setCol_self _ _ _ hcol0]
    exact ih _ _ (fun c hc => h c (by simp [hc]))

/-! ### Sampling population lemmas -/

theorem mem_dedupFirst (xs : List ℚ) (v : ℚ) : v ∈ dedupFirst xs ↔ v ∈ xs := by
  induction xs with
  | nil => simp [dedupFirst]
  | cons x xs ih =>
    by_cases hv : v = x
    · subst hv
      simp [dedupFirst]
    · simp [dedupFirst, List.mem_filter, hv, ih]

theorem mem_insertByCount (xs : List ℚ) (v w : ℚ) (l : List ℚ) :
    w ∈ insertByCount xs v l ↔ w = v ∨ w ∈ l := by
  induction l with
  | nil => simp [insertByCount]
  | cons u us ih =>
    simp only [insertByCount]
    split
    · simp
    · simp [ih]
      tauto

theorem mem_countSorted (xs d : List ℚ) (w : ℚ) :
    w ∈ d.foldr (insertByCount xs) [] ↔ w ∈ d := by
  induction d with
  | nil => simp
  | cons u us ih => simp [mem_insertByCount, ih]

theorem mem_valueCountsNorm_fst (xs : List ℚ) (v : ℚ)
    (h : v ∈ (valueCountsNorm xs).map Prod.fst) : v ∈ xs := by
  have heq : (valueCountsNorm xs).map Prod.fst
      = (dedupFirst xs).foldr (insertByCount xs) [] := by
    unfold valueCountsNorm
    rw [List.map_map]
    exact List.map_id _
  rw [heq] at h
  exact (mem_dedupFirst xs v).mp ((mem_countSorted xs _ v).mp h)

theorem choicesOne_mem (pop wts : List ℚ) (r v : ℚ)
    (h : choicesOne pop wts r = some v) : v ∈ pop := by
  unfold choicesOne at h
  revert h
  cases (cumsum 0 wts).getLast? with
  | none => intro h; cases h
  | some total =>
    simp only
    split
    · intro h; cases h
    · intro h
      exact List.getElem?_mem h

theorem drawsN_mem (ratio : List (ℚ × ℚ)) (rs : Nat → ℚ) :
    ∀ (n ctr : Nat) (vs : List ℚ), drawsN ratio rs ctr n = some vs →
      ∀ v ∈ vs, v ∈ ratio.map Prod.fst := by
  intro n
  induction n with
  | zero =>
    intro ctr vs h v hv
    simp [drawsN] at h
    subst h
    simp at hv
  | succ m ih =>
    intro ctr vs h v hv
    simp only [drawsN] at h
    revert h
    cases hch : choicesOne (ratio.map Prod.fst) (ratio.map Prod.snd) (rs ctr) with
    | none => intro h; cases h
    | some w =>
      cases hd : drawsN ratio rs (ctr + 1) m with
      | none => intro h; cases h
      | some ws =>
        intro h
        simp at h
        subst h
        rcases List.mem_cons.mp hv with rfl | hmem
        · exact choicesOne_mem _ _ _ _ hch
        · exact ih _ _ hd v hmem

theorem drawsN_length (ratio : List (ℚ × ℚ)) (rs : Nat → ℚ) :
    ∀ (n ctr : Nat) (vs : List ℚ), drawsN ratio rs ctr n = some vs →
      vs.length = n := by
  intro n
  induction n with
  | zero =>
    intro ctr vs h
    simp [drawsN] at h
    subst h
    rfl
  | succ m ih =>
    intro ctr vs h
    simp only [drawsN] at h
    revert h
    cases hch : choicesOne (ratio.map Prod.fst) (ratio.map Prod.snd) (rs ctr) with
    | none => intro h; cases h
    | some w =>
      cases hd : drawsN ratio rs (ctr + 1) m with
      | none => intro h; cases h
      | some ws =>
        intro h
        simp at h
        subst h
        simp [ih _ _ hd]

/-! ### Mode lemmas -/

theorem foldl_min_choice (l : List ℚ) : ∀ (a : ℚ),
    l.foldl min a = a ∨ l.foldl min a ∈ l := by
  induction l with
  | nil => intro a; simp
  | cons x xs ih =>
    intro a
    rcases ih (min a x) with h | h
    · rcases min_choice a x with hm | hm
      · rw [List.foldl_cons, h, hm]
        exact .inl rfl
      · rw [List.foldl_cons, h, hm]
        exact .inr (by simp)
    · exact .inr (by simp [h])

theorem foldl_min_le_init (l : List ℚ) : ∀ (a : ℚ), l.foldl min a ≤ a := by
  induction l with
  | nil => intro a; simp
  | cons x xs ih =>
    intro a
    calc (x :: xs).foldl min a = xs.foldl min (min a x) := rfl
      _ ≤ min a x := ih (min a x)
      _ ≤ a := min_le_left a x

theorem foldl_min_le (l : List ℚ) : ∀ (a x : ℚ), x ∈ l → l.foldl min a ≤ x := by
  induction l with
  | nil => intro a x h; simp at h
  | cons y ys ih =>
    intro a x h
    rcases List.mem_cons.mp h with rfl | hmem
    · calc (x :: ys).foldl min a = ys.foldl min (min a x) := rfl
        _ ≤ min a x := foldl_min_le_init ys (min a x)
        _ ≤ x := min_le_right a x
    · exact ih (min a y) x hmem

theorem listMin_mem (l : List ℚ) (m : ℚ) (h : listMin l = some m) : m ∈ l := by
  cases l with
  | nil => cases h
  | cons x xs =>
    simp [listMin] at h
    rcases foldl_min_choice xs x with h' | h'
    · rw [← h, h']
      simp
    · rw [← h]
      simp [h']

theorem listMin_le (l : List ℚ) (m : ℚ) (h : listMin l = some m) :
    ∀ x ∈ l, m ≤ x := by
  cases l with
  | nil => cases h
  | cons y ys =>
    simp [listMin] at h
    intro x hx
    rcases List.mem_cons.mp hx with rfl | hmem
    · rw [← h]
      exact foldl_min_le_init ys x
    · rw [← h]
      exact foldl_min_le ys y x hmem

/-- `Series.mode()[0]` returns a value of the column, of maximal
multiplicity, and minimal among the values that attain it (pandas
sorts the modal values ascending). -/
theorem modeFirst_spec (xs : List ℚ) (v : ℚ) (h : modeFirst xs = some v) :
    v ∈ xs ∧ (∀ w ∈ xs, xs.count w ≤ xs.count v) ∧
      (∀ w ∈ xs, xs.count w = xs.count v → v ≤ w) := by
  have hmem := listMin_mem _ _ h
  have hle := listMin_le _ _ h
  simp only [modalCands, List.mem_filter] at hmem
  obtain ⟨hd, hall⟩ := hmem
  rw [List.all_eq_true] at hall
  refine ⟨(mem_dedupFirst xs v).mp hd, ?_, ?_⟩
  · intro w hw
    simpa using hall w ((mem_dedupFirst xs w).mpr hw)
  · intro w hw hcnt
    refine hle w ?_
    simp only [modalCands, List.mem_filter]
    refine ⟨(mem_dedupFirst xs w).mpr hw, ?_⟩
    rw [List.all_eq_true]
    intro u hu
    have := hall u hu
    simp at this ⊢
    omega

/-! ### Computation of the per-column steps, method by method -/

theorem fillnanCol_num (m : PyVal) (v : ℚ) (hm : m.num? = some v)
    (rs : Nat → ℚ) (col : Col) (ctr : Nat) :
    fillnanCol m rs col ctr = .ok (fillNone col (some v), ctr) := by
  cases m with
  | int n => simp [PyVal.num?] at hm; simp [fillnanCol, ← hm]
  | float q => simp [PyVal.num?] at hm; simp [fillnanCol, hm]
  | str s => simp [PyVal.num?] at hm
  | other => simp [PyVal.num?] at hm

theorem fillnanCol_mean (rs : Nat → ℚ) (col : Col) (ctr : Nat) :
    fillnanCol (.str "mean") rs col ctr
      = .ok (fillNone col (meanQ (presentVals col)), ctr) := by
  simp [fillnanCol]

theorem fillnanCol_mode_inv (rs : Nat → ℚ) (col : Col) (ctr : Nat)
    (col' : Col) (ctr' : Nat)
    (h : fillnanCol (.str "mode") rs col ctr = .ok (col', ctr')) :
    ∃ v, modeFirst (presentVals col) = some v ∧ col' = fillNone col (some v) := by
  simp only [fillnanCol, if_false, if_true, String.reduceEq, reduceIte] at h
  revert h
  cases hm : modeFirst (presentVals col) with
  | none => intro h; cases h
  | some v =>
    intro h
    simp at h
    exact ⟨v, rfl, h.1.symm⟩

theorem fillnanCol_rdbr_inv (rs : Nat → ℚ) (col : Col) (ctr : Nat)
    (col' : Col) (ctr' : Nat)
    (h : fillnanCol (.str "rdbr") rs col ctr = .ok (col', ctr')) :
    ∃ vs, drawsN (valueCountsNorm (presentVals col)) rs ctr (nanCount col)
        = some vs ∧ col' = fillNoneSeq col vs := by
  simp only [fillnanCol, if_false, if_true, String.reduceEq, reduceIte] at h
  revert h
  cases hd : drawsN (valueCountsNorm (presentVals col)) rs ctr (nanCount col) with
  | none => intro h; cases h
  | some vs =>
    intro h
    simp at h
    exact ⟨vs, rfl, h.1.symm⟩

theorem fillOutliersCol_mean (rs : Nat → ℚ) (mask : List Bool) (col : Col)
    (ctr : Nat) :
    fillOutliersCol (.str "mean") rs mask col ctr
      = .ok (fillMask col mask (meanQ (unmaskedPresent col mask)), ctr) := by
  simp [fillOutliersCol]

theorem fillOutliersCol_median (rs : Nat → ℚ) (mask : List Bool) (col : Col)
    (ctr : Nat) :
    fillOutliersCol (.str "median") rs mask col ctr
      = .ok (fillMask col mask (medianQ (unmaskedPresent col mask)), ctr) := by
  simp [fillOutliersCol]

theorem fillOutliersCol_rdbr_inv (rs : Nat → ℚ) (mask : List Bool) (col : Col)
    (ctr : Nat) (col' : Col) (ctr' : Nat)
    (h : fillOutliersCol (.str "rdbr") rs mask col ctr = .ok (col', ctr')) :
    ∃ vs, drawsN (valueCountsNorm (unmaskedPresent col mask)) rs ctr
        (maskCount mask) = some vs ∧ col' = fillMaskSeq col mask vs := by
  simp only [fillOutliersCol, if_false, if_true, String.reduceEq, reduceIte] at h
  revert h
  cases hd : drawsN (valueCountsNorm (unmaskedPresent col mask)) rs ctr
      (maskCount mask) with
  | none => intro h; cases h
  | some vs =>
    intro h
    simp at h
    exact ⟨vs, rfl, h.1.symm⟩

/-- Every successful `fillnan` step leaves non-missing cells unchanged. -/
theorem fillnanCol_preserves_present (m : PyVal) (rs : Nat → ℚ) (col : Col)
    (ctr : Nat) (col' : Col) (ctr' : Nat)
    (h : fillnanCol m rs col ctr = .ok (col', ctr'))
    (i : Nat) (x : ℚ) (hx : col[i]? = some (some x)) :
    col'[i]? = some (some x) := by
  rcases fillnanCol_shape m rs col ctr col' ctr' h with ⟨v, rfl⟩ | ⟨vs, _, rfl⟩ | rfl
  · exact fillNone_get_some col v i x hx
  · exact fillNoneSeq_get_some col vs i x hx
  · exact hx

/-- Every successful outlier step leaves unmasked cells unchanged. -/
theorem fillOutliersCol_preserves_unmasked (m : PyVal) (rs : Nat → ℚ)
    (mask : List Bool) (col : Col) (ctr : Nat) (col' : Col) (ctr' : Nat)
    (h : fillOutliersCol m rs mask col ctr = .ok (col', ctr'))
    (i : Nat) (hm : mask[i]? = some false) :
    col'[i]? = col[i]? := by
  rcases fillOutliersCol_shape m rs mask col ctr col' ctr' h with
    ⟨v, rfl⟩ | ⟨vs, _, rfl⟩ | rfl
  · exact fillMask_get_false col mask v i hm
  · exact fillMaskSeq_get_false col mask vs i hm
  · rfl

/-- Every successful outlier step preserves missing cells (they are
never flagged). -/
theorem filloutlierIqrCol_preserves_none (m : PyVal) (kq : ℚ) (rs : Nat → ℚ)
    (col : Col) (ctr : Nat) (col' : Col) (ctr' : Nat)
    (h : filloutlierIqrCol m kq rs col ctr = .ok (col', ctr'))
    (i : Nat) (hx : col[i]? = some none) : col'[i]? = some none := by
  have hm := outlierMaskIqr_get_none col kq i hx
  rw [fillOutliersCol_preserves_unmasked m rs _ col ctr col' ctr' h i hm]
  exact hx

theorem filloutlierSigmaCol_preserves_none (sq : ℚ → ℚ) (m : PyVal) (kq : ℚ)
    (rs : Nat → ℚ) (col : Col) (ctr : Nat) (col' : Col) (ctr' : Nat)
    (h : filloutlierSigmaCol sq m kq rs col ctr = .ok (col', ctr'))
    (i : Nat) (hx : col[i]? = some none) : col'[i]? = some none := by
  have hm := outlierMaskSigma_get_none sq col kq i hx
  rw [fillOutliersCol_preserves_unmasked m rs _ col ctr col' ctr' h i hm]
  exact hx

/-! ### Run-level inversion -/

theorem fillnan_ok_inv (f : State) (m : PyVal) (rs : Nat → ℚ) (t1 : Table)
    (h : fillnan f m rs = (t1, none)) :
    validateMethod m allowedNan = none ∧
    (colLoop (fillnanCol m rs) f.columns f.data 0).1 = t1 ∧
    (colLoop (fillnanCol m rs) f.columns f.data 0).2.2 = none := by
  revert h
  unfold fillnan
  cases hv : validateMethod m allowedNan with
  | some e => intro h; simp at h
  | none =>
    intro h
    simp at h
    exact ⟨rfl, h.1, h.2⟩

theorem filloutlier_iqr_ok_inv (f : State) (m k : PyVal) (rs : Nat → ℚ)
    (t1 : Table) (h : filloutlier_iqr f m k rs = (t1, none)) :
    validateK k = none ∧ validateMethod m allowedOut = none ∧
    (colLoop (filloutlierIqrCol m (k.num?.getD 0) rs) f.columns f.data 0).1
      = t1 ∧
    (colLoop (filloutlierIqrCol m (k.num?.getD 0) rs) f.columns f.data 0).2.2
      = none := by
  revert h
  unfold filloutlier_iqr
  cases m <;> simp only
  case other => intro h; simp at h
  all_goals
    cases hv : validateK k with
    | some e => intro h; simp at h
    | none =>
      cases hm : validateMethod _ _ with
      | some e => intro h; simp at h
      | none =>
        intro h
        simp at h
        exact ⟨rfl, rfl, h.1, h.2⟩

theorem filloutlier_sigma_ok_inv (sq : ℚ → ℚ) (f : State) (m k : PyVal)
    (rs : Nat → ℚ) (t1 : Table)
    (h : filloutlier_sigma sq f m k rs = (t1, none)) :
    validateK k = none ∧ validateMethod m allowedOut = none ∧
    (colLoop (filloutlierSigmaCol sq m (k.num?.getD 0) rs) f.columns f.data 0).1
      = t1 ∧
    (colLoop (filloutlierSigmaCol sq m (k.num?.getD 0) rs) f.columns
        f.data 0).2.2 = none := by
  revert h
  unfold filloutlier_sigma
  cases m <;> simp only
  case other => intro h; simp at h
  all_goals
    cases hv : validateK k with
    | some e => intro h; simp at h
    | none =>
      cases hm : validateMethod _ _ with
      | some e => intro h; simp at h
      | none =>
        intro h
        simp at h
        exact ⟨rfl, rfl, h.1, h.2⟩

/-- A positional fill with exactly one drawn value per missing cell
gives every formerly missing cell one of the drawn values. -/
theorem fillNoneSeq_get_none_mem (col : Col) (vs : List ℚ) (i : Nat)
    (hlen : vs.length = nanCount col) (h : col[i]? = some none) :
    ∃ v ∈ vs, (fillNoneSeq col vs)[i]? = some (some v) := by
  induction col generalizing vs i with
  | nil => simp at h
  | cons y cs ih =>
    cases y with
    | none =>
      cases vs with
      | nil => simp [nanCount, List.count_cons] at hlen
      | cons v vs' =>
        cases i with
        | zero => exact ⟨v, by simp, by simp [fillNoneSeq]⟩
        | succ j =>
          have h' : cs[j]? = some none := by simpa using h
          have hlen' : vs'.length = nanCount cs := by
            simp [nanCount, List.count_cons] at hlen ⊢
            omega
          obtain ⟨v', hv', hg⟩ := ih vs' j hlen' h'
          exact ⟨v', by simp [hv'], by simpa [fillNoneSeq] using hg⟩
    | some z =>
      cases i with
      | zero => simp at h
      | succ j =>
        have h' : cs[j]? = some none := by simpa using h
        have hlen' : vs.length = nanCount cs := by
          simpa [nanCount, List.count_cons] using hlen
        obtain ⟨v', hv', hg⟩ := ih vs j hlen' h'
        exact ⟨v', hv', by simpa [fillNoneSeq] using hg⟩

/-! ### Claim theorems for `fillnan` -/

/-- C9: calling `fillnan(0)` twice in a row on the same instance leaves
the stored table unchanged after the second call — the first call
removed every missing entry of the target columns, so the second call's
mask is empty and the call is the identity on the table. -/
theorem c9_fillnan_zero_idempotent (f : State) (rs rs2 : Nat → ℚ)
    (t1 : Table) (h : fillnan f (.int 0) rs = (t1, none)) :
    fillnan { data := t1, columns := f.columns } (.int 0) rs2 = (t1, none) := by
  obtain ⟨hv, h1, h2⟩ := fillnan_ok_inv f _ rs t1 h
  have hest := colLoop_establish (fillnanCol (.int 0) rs)
    (fun col' => none ∉ col')
    (fun col ctr col' ctr' hok => by
      rw [fillnanCol_num (.int 0) 0 (by simp [PyVal.num?]) rs col ctr] at hok
      simp at hok
      rw [← hok.1]
      exact none_not_mem_fillNone col 0)
  have hid : colLoop (fillnanCol (.int 0) rs2) f.columns t1 0 = (t1, 0, none) := by
    refine colLoop_id _ _ _ _ (fun c hc => ?_)
    obtain ⟨col', hcol', hP⟩ := hest f.columns f.data 0 c hc h2
    rw [h1] at hcol'
    refine ⟨col', hcol', fun k => ?_⟩
    rw [fillnanCol_num (.int 0) 0 (by simp [PyVal.num?]) rs2 col' k,
      fillNone_of_not_mem col' _ hP]
  simp [fillnan, validateMethod, hid]

/-- C3: after `fillnan("mean")`, every formerly missing cell of each
target column equals the mean of that column's non-missing entries as
they were immediately before the call. -/
theorem c3_mean_fill (f : State) (rs : Nat → ℚ) (t1 : Table) (c : String)
    (col : Col) (hnd : f.columns.Nodup) (hc : c ∈ f.columns)
    (hcol : getCol f.data c = some col) (hpres : presentVals col ≠ [])
    (hok : fillnan f (.str "mean") rs = (t1, none)) :
    meanQ (presentVals col)
        = some ((presentVals col).sum / ((presentVals col).length : ℚ)) ∧
    ∀ i : Nat, col[i]? = some none →
      cellAt t1 c i
        = some (some ((presentVals col).sum /
            ((presentVals col).length : ℚ))) := by
  obtain ⟨hv, h1, h2⟩ := fillnan_ok_inv f _ rs t1 hok
  obtain ⟨col0, ctr0, col', ctr1, hcol0, hstep, hres⟩ :=
    colLoop_ok_visit (fillnanCol (.str "mean") rs) f.columns f.data 0 c hnd hc h2
  rw [hcol] at hcol0
  injection hcol0 with hcol0
  subst hcol0
  rw [fillnanCol_mean rs col ctr0] at hstep
  simp at hstep
  have hmean : meanQ (presentVals col)
      = some ((presentVals col).sum / ((presentVals col).length : ℚ)) := by
    simp [meanQ, hpres]
  refine ⟨hmean, fun i hi => ?_⟩
  rw [h1] at hres
  rw [← hstep.1] at hres
  have hg := fillNone_get_none col (meanQ (presentVals col)) i hi
  rw [hmean] at hg
  simp [cellAt, hres, hmean, hg]

/-- C8: `fillnan("mode")` fills every missing cell of each target
column with the single most frequent value of the column; on ties the
first modal value in the canonical (ascending) order — the least tied
value — is used. -/
theorem c8_mode_fill (f : State) (rs : Nat → ℚ) (t1 : Table) (c : String)
    (col : Col) (hnd : f.columns.Nodup) (hc : c ∈ f.columns)
    (hcol : getCol f.data c = some col)
    (hok : fillnan f (.str "mode") rs = (t1, none)) :
    ∃ v, modeFirst (presentVals col) = some v ∧
      v ∈ presentVals col ∧
      (∀ w ∈ presentVals col,
        (presentVals col).count w ≤ (presentVals col).count v) ∧
      (∀ w ∈ presentVals col,
        (presentVals col).count w = (presentVals col).count v → v ≤ w) ∧
      ∀ i : Nat, col[i]? = some none → cellAt t1 c i = some (some v) := by
  obtain ⟨hv, h1, h2⟩ := fillnan_ok_inv f _ rs t1 hok
  obtain ⟨col0, ctr0, col', ctr1, hcol0, hstep, hres⟩ :=
    colLoop_ok_visit (fillnanCol (.str "mode") rs) f.columns f.data 0 c hnd hc h2
  rw [hcol] at hcol0
  injection hcol0 with hcol0
  subst hcol0
  obtain ⟨v, hm, hcol'⟩ := fillnanCol_mode_inv rs col ctr0 col' ctr1 hstep
  obtain ⟨hvmem, hmax, htie⟩ := modeFirst_spec _ _ hm
  refine ⟨v, hm, hvmem, hmax, htie, fun i hi => ?_⟩
  rw [h1] at hres
  rw [hcol'] at hres
  have := fillNone_get_none col (some v) i hi
  simp [cellAt, hres, this]

/-- C1: `fillnan("rdbr")` draws, independently with replacement, one
value per missing position — weighted by the normalized value
frequencies of the column — and assigns the draws positionally; every
drawn value, hence every filled cell, comes from the column's set of
present values. -/
theorem c1_rdbr_fill (f : State) (rs : Nat → ℚ) (t1 : Table) (c : String)
    (col : Col) (hnd : f.columns.Nodup) (hc : c ∈ f.columns)
    (hcol : getCol f.data c = some col)
    (hok : fillnan f (.str "rdbr") rs = (t1, none)) :
    ∃ ctr vs,
      drawsN (valueCountsNorm (presentVals col)) rs ctr (nanCount col)
        = some vs ∧
      vs.length = nanCount col ∧
      (∀ v ∈ vs, v ∈ presentVals col) ∧
      getCol t1 c = some (fillNoneSeq col vs) ∧
      ∀ i : Nat, col[i]? = some none →
        ∃ v ∈ presentVals col, cellAt t1 c i = some (some v) := by
  obtain ⟨hv, h1, h2⟩ := fillnan_ok_inv f _ rs t1 hok
  obtain ⟨col0, ctr0, col', ctr1, hcol0, hstep, hres⟩ :=
    colLoop_ok_visit (fillnanCol (.str "rdbr") rs) f.columns f.data 0 c hnd hc h2
  rw [hcol] at hcol0
  injection hcol0 with hcol0
  subst hcol0
  obtain ⟨vs, hd, hcol'⟩ := fillnanCol_rdbr_inv rs col ctr0 col' ctr1 hstep
  rw [h1] at hres
  rw [hcol'] at hres
  have hlen := drawsN_length _ rs _ _ _ hd
  have hmem : ∀ v ∈ vs, v ∈ presentVals col := fun v hv' =>
    mem_valueCountsNorm_fst _ v (drawsN_mem _ rs _ _ _ hd v hv')
  refine ⟨ctr0, vs, hd, hlen, hmem, hres, fun i hi => ?_⟩
  obtain ⟨v, hvvs, hg⟩ := fillNoneSeq_get_none_mem col vs i hlen hi
  exact ⟨v, hmem v hvvs, by simp [cellAt, hres, hg]⟩

/-! ### Claim theorems for the outlier operations -/

theorem filloutlier_iqr_fst (f : State) (m k : PyVal) (rs : Nat → ℚ) :
    (filloutlier_iqr f m k rs).1 = f.data ∨
    (filloutlier_iqr f m k rs).1
      = (colLoop (filloutlierIqrCol m (k.num?.getD 0) rs) f.columns
          f.data 0).1 := by
  unfold filloutlier_iqr
  cases m
  case other => exact .inl rfl
  all_goals
    cases validateK k with
    | some e => exact .inl rfl
    | none =>
      cases validateMethod _ _ with
      | some e => exact .inl rfl
      | none => exact .inr rfl

theorem filloutlier_sigma_fst (sq : ℚ → ℚ) (f : State) (m k : PyVal)
    (rs : Nat → ℚ) :
    (filloutlier_sigma sq f m k rs).1 = f.data ∨
    (filloutlier_sigma sq f m k rs).1
      = (colLoop (filloutlierSigmaCol sq m (k.num?.getD 0) rs) f.columns
          f.data 0).1 := by
  unfold filloutlier_sigma
  cases m
  case other => exact .inl rfl
  all_goals
    cases validateK k with
    | some e => exact .inl rfl
    | none =>
      cases validateMethod _ _ with
      | some e => exact .inl rfl
      | none => exact .inr rfl

/-- C5: in both outlier operations the bound statistics are computed on
the non-missing values only, missing cells are never flagged by the
masks (a comparison with `NaN` is false), and therefore every cell that
is missing before the call is still missing after it, for every method
and every numeric `k` — also on the partially mutated table of a failed
call. -/
theorem c5_outlier_missing_preserved (f : State) (m k : PyVal)
    (rs : Nat → ℚ) (sq : ℚ → ℚ) (c : String) (i : Nat)
    (h : cellAt f.data c i = some none) :
    cellAt (filloutlier_iqr f m k rs).1 c i = some none ∧
    cellAt (filloutlier_sigma sq f m k rs).1 c i = some none ∧
    (∀ (col : Col) (kq : ℚ) (j : Nat),
      (outlierMaskIqr col kq)[j]? = some true →
        ∃ v, col[j]? = some (some v)) ∧
    (∀ (col : Col) (kq : ℚ) (j : Nat),
      (outlierMaskSigma sq col kq)[j]? = some true →
        ∃ v, col[j]? = some (some v)) := by
  refine ⟨?_, ?_, fun col kq j hj => outlierMaskIqr_get_true col kq j hj,
    fun col kq j hj => outlierMaskSigma_get_true sq col kq j hj⟩
  · rcases filloutlier_iqr_fst f m k rs with he | he
    · rw [he]; exact h
    · rw [he]
      exact colLoop_preserve_none _
        (fun col ctr col' ctr' hok j hx =>
          filloutlierIqrCol_preserves_none m _ rs col ctr col' ctr' hok j hx)
        f.columns f.data 0 c i h
  · rcases filloutlier_sigma_fst sq f m k rs with he | he
    · rw [he]; exact h
    · rw [he]
      exact colLoop_preserve_none _
        (fun col ctr col' ctr' hok j hx =>
          filloutlierSigmaCol_preserves_none sq m _ rs col ctr col' ctr' hok j hx)
        f.columns f.data 0 c i h

/-- C4: in both outlier operations, for the methods `"mean"`,
`"median"` and `"rdbr"`, the fill statistic (mean, median, or the
value-frequency table the sampler draws from) is computed over the
in-bound subset of the column — the non-flagged entries — and the
resulting values are written exactly at the flagged positions. -/
theorem c4_outlier_stats_from_inliers (f : State) (k : PyVal) (kq : ℚ)
    (rs : Nat → ℚ) (sq : ℚ → ℚ) (c : String) (col : Col) (t1 : Table)
    (hnd : f.columns.Nodup) (hc : c ∈ f.columns)
    (hcol : getCol f.data c = some col) (hk : k.num? = some kq) :
    (filloutlier_iqr f (.str "mean") k rs = (t1, none) →
      getCol t1 c = some (fillMask col (outlierMaskIqr col kq)
        (meanQ (unmaskedPresent col (outlierMaskIqr col kq))))) ∧
    (filloutlier_iqr f (.str "median") k rs = (t1, none) →
      getCol t1 c = some (fillMask col (outlierMaskIqr col kq)
        (medianQ (unmaskedPresent col (outlierMaskIqr col kq))))) ∧
    (filloutlier_iqr f (.str "rdbr") k rs = (t1, none) →
      ∃ ctr vs,
        drawsN (valueCountsNorm (unmaskedPresent col (outlierMaskIqr col kq)))
          rs ctr (maskCount (outlierMaskIqr col kq)) = some vs ∧
        getCol t1 c = some (fillMaskSeq col (outlierMaskIqr col kq) vs)) ∧
    (filloutlier_sigma sq f (.str "mean") k rs = (t1, none) →
      getCol t1 c = some (fillMask col (outlierMaskSigma sq col kq)
        (meanQ (unmaskedPresent col (outlierMaskSigma sq col kq))))) ∧
    (filloutlier_sigma sq f (.str "median") k rs = (t1, none) →
      getCol t1 c = some (fillMask col (outlierMaskSigma sq col kq)
        (medianQ (unmaskedPresent col (outlierMaskSigma sq col kq))))) ∧
    (filloutlier_sigma sq f (.str "rdbr") k rs = (t1, none) →
      ∃ ctr vs,
        drawsN (valueCountsNorm (unmaskedPresent col
            (outlierMaskSigma sq col kq)))
          rs ctr (maskCount (outlierMaskSigma sq col kq)) = some vs ∧
        getCol t1 c = some (fillMaskSeq col (outlierMaskSigma sq col kq) vs)) := by
  have hkq : k.num?.getD 0 = kq := by simp [hk]
  refine ⟨?_, ?_, ?_, ?_, ?_, ?_⟩
  · intro hok
    obtain ⟨_, _, h1, h2⟩ := filloutlier_iqr_ok_inv f _ k rs t1 hok
    rw [hkq] at h1 h2
    obtain ⟨col0, ctr0, col', ctr1, hcol0, hstep, hres⟩ :=
      colLoop_ok_visit _ f.columns f.data 0 c hnd hc h2
    rw [hcol] at hcol0
    injection hcol0 with e
    subst e
    simp only [filloutlierIqrCol, fillOutliersCol_mean] at hstep
    simp at hstep
    rw [h1, ← hstep.1] at hres
    exact hres
  · intro hok
    obtain ⟨_, _, h1, h2⟩ := filloutlier_iqr_ok_inv f _ k rs t1 hok
    rw [hkq] at h1 h2
    obtain ⟨col0, ctr0, col', ctr1, hcol0, hstep, hres⟩ :=
      colLoop_ok_visit _ f.columns f.data 0 c hnd hc h2
    rw [hcol] at hcol0
    injection hcol0 with e
    subst e
    simp only [filloutlierIqrCol, fillOutliersCol_median] at hstep
    simp at hstep
    rw [h1, ← hstep.1] at hres
    exact hres
  · intro hok
    obtain ⟨_, _, h1, h2⟩ := filloutlier_iqr_ok_inv f _ k rs t1 hok
    rw [hkq] at h1 h2
    obtain ⟨col0, ctr0, col', ctr1, hcol0, hstep, hres⟩ :=
      colLoop_ok_visit _ f.columns f.data 0 c hnd hc h2
    rw [hcol] at hcol0
    injection hcol0 with e
    subst e
    simp only [filloutlierIqrCol] at hstep
    obtain ⟨vs, hd, hcol'⟩ :=
      fillOutliersCol_rdbr_inv rs _ col ctr0 col' ctr1 hstep
    rw [h1, hcol'] at hres
    exact ⟨ctr0, vs, hd, hres⟩
  · intro hok
    obtain ⟨_, _, h1, h2⟩ := filloutlier_sigma_ok_inv sq f _ k rs t1 hok
    rw [hkq] at h1 h2
    obtain ⟨col0, ctr0, col', ctr1, hcol0, hstep, hres⟩ :=
      colLoop_ok_visit _ f.columns f.data 0 c hnd hc h2
    rw [hcol] at hcol0
    injection hcol0 with e
    subst e
    simp only [filloutlierSigmaCol, fillOutliersCol_mean] at hstep
    simp at hstep
    rw [h1, ← hstep.1] at hres
    exact hres
  · intro hok
    obtain ⟨_, _, h1, h2⟩ := filloutlier_sigma_ok_inv sq f _ k rs t1 hok
    rw [hkq] at h1 h2
    obtain ⟨col0, ctr0, col', ctr1, hcol0, hstep, hres⟩ :=
      colLoop_ok_visit _ f.columns f.data 0 c hnd hc h2
    rw [hcol] at hcol0
    injection hcol0 with e
    subst e
    simp only [filloutlierSigmaCol, fillOutliersCol_median] at hstep
    simp at hstep
    rw [h1, ← hstep.1] at hres
    exact hres
  · intro hok
    obtain ⟨_, _, h1, h2⟩ := filloutlier_sigma_ok_inv sq f _ k rs t1 hok
    rw [hkq] at h1 h2
    obtain ⟨col0, ctr0, col', ctr1, hcol0, hstep, hres⟩ :=
      colLoop_ok_visit _ f.columns f.data 0 c hnd hc h2
    rw [hcol] at hcol0
    injection hcol0 with e
    subst e
    simp only [filloutlierSigmaCol] at hstep
    obtain ⟨vs, hd, hcol'⟩ :=
      fillOutliersCol_rdbr_inv rs _ col ctr0 col' ctr1 hstep
    rw [h1, hcol'] at hres
    exact ⟨ctr0, vs, hd, hres⟩

theorem fillnan_fst (f : State) (m : PyVal) (rs : Nat → ℚ) :
    (fillnan f m rs).1 = f.data ∨
    (fillnan f m rs).1 = (colLoop (fillnanCol m rs) f.columns f.data 0).1 := by
  unfold fillnan
  cases validateMethod m allowedNan with
  | some e => exact .inl rfl
  | none => exact .inr rfl

/-- C10: every fill operation modifies only the cells at masked
positions of the configured target columns — the missing entries for
`fillnan`, the flagged outlier positions for the outlier operations.
Columns not listed in `self.columns` are untouched (even when a call
stops on an exception), and an unmasked cell of a target column keeps
its value. -/
theorem c10_frame_conditions (f : State) (m k : PyVal) (kq : ℚ)
    (rs : Nat → ℚ) (sq : ℚ → ℚ) (hnd : f.columns.Nodup)
    (hk : k.num? = some kq) :
    (∀ d, d ∉ f.columns →
      getCol (fillnan f m rs).1 d = getCol f.data d ∧
      getCol (filloutlier_iqr f m k rs).1 d = getCol f.data d ∧
      getCol (filloutlier_sigma sq f m k rs).1 d = getCol f.data d) ∧
    (∀ (t1 : Table) (d : String) (col : Col) (i : Nat) (x : ℚ),
      d ∈ f.columns → getCol f.data d = some col →
      (fillnan f m rs = (t1, none) → col[i]? = some (some x) →
        cellAt t1 d i = some (some x)) ∧
      (filloutlier_iqr f m k rs = (t1, none) →
        (outlierMaskIqr col kq)[i]? = some false →
        cellAt t1 d i = col[i]?) ∧
      (filloutlier_sigma sq f m k rs = (t1, none) →
        (outlierMaskSigma sq col kq)[i]? = some false →
        cellAt t1 d i = col[i]?)) := by
  have hkq : k.num?.getD 0 = kq := by simp [hk]
  constructor
  · intro d hd
    refine ⟨?_, ?_, ?_⟩
    · rcases fillnan_fst f m rs with he | he
      · rw [he]
      · rw [he, colLoop_not_mem _ _ _ _ _ hd]
    · rcases filloutlier_iqr_fst f m k rs with he | he
      · rw [he]
      · rw [he, colLoop_not_mem _ _ _ _ _ hd]
    · rcases filloutlier_sigma_fst sq f m k rs with he | he
      · rw [he]
      · rw [he, colLoop_not_mem _ _ _ _ _ hd]
  · intro t1 d col i x hd hcol
    refine ⟨?_, ?_, ?_⟩
    · intro hok hx
      obtain ⟨_, h1, h2⟩ := fillnan_ok_inv f m rs t1 hok
      obtain ⟨col0, ctr0, col', ctr1, hcol0, hstep, hres⟩ :=
        colLoop_ok_visit _ f.columns f.data 0 d hnd hd h2
      rw [hcol] at hcol0
      injection hcol0 with e
      subst e
      rw [h1] at hres
      have := fillnanCol_preserves_present m rs col ctr0 col' ctr1 hstep i x hx
      simp [cellAt, hres, this]
    · intro hok hmask
      obtain ⟨_, _, h1, h2⟩ := filloutlier_iqr_ok_inv f m k rs t1 hok
      rw [hkq] at h1 h2
      obtain ⟨col0, ctr0, col', ctr1, hcol0, hstep, hres⟩ :=
        colLoop_ok_visit _ f.columns f.data 0 d hnd hd h2
      rw [hcol] at hcol0
      injection hcol0 with e
      subst e
      rw [h1] at hres
      simp only [filloutlierIqrCol] at hstep
      have := fillOutliersCol_preserves_unmasked m rs _ col ctr0 col' ctr1
        hstep i hmask
      simp [cellAt, hres, this]
    · intro hok hmask
      obtain ⟨_, _, h1, h2⟩ := filloutlier_sigma_ok_inv sq f m k rs t1 hok
      rw [hkq] at h1 h2
      obtain ⟨col0, ctr0, col', ctr1, hcol0, hstep, hres⟩ :=
        colLoop_ok_visit _ f.columns f.data 0 d hnd hd h2
      rw [hcol] at hcol0
      injection hcol0 with e
      subst e
      rw [h1] at hres
      simp only [filloutlierSigmaCol] at hstep
      have := fillOutliersCol_preserves_unmasked m rs _ col ctr0 col' ctr1
        hstep i hmask
      simp [cellAt, hres, this]

/-! ### C2: IQR bounds -/

theorem quantileQ_q1_1234100 : quantileQ [1, 2, 3, 4, 100] (1/4) = some 2 := by
  norm_num [quantileQ, sortQ, insertSorted, Int.floor_eq_iff, Int.ceil_eq_iff]

theorem quantileQ_q3_1234100 : quantileQ [1, 2, 3, 4, 100] (3/4) = some 4 := by
  norm_num [quantileQ, sortQ, insertSorted, Int.floor_eq_iff, Int.ceil_eq_iff]
  decide

theorem outlierMaskIqr_1234100 :
    outlierMaskIqr [some 1, some 2, some 3, some 4, some 100] (3/2)
      = [false, false, false, false, true] := by
  norm_num [outlierMaskIqr, presentVals, quantileQ_q1_1234100,
    quantileQ_q3_1234100]

/-- C2: `filloutlier_iqr` takes Q1 and Q3 as the 0.25 and 0.75
linear-interpolation quantiles of the column, widens the fence by
`k * (Q3 - Q1)` and flags exactly the present values strictly outside
`[Q1 - width, Q3 + width]`; on the column `[1, 2, 3, 4, 100]` with
`k = 1.5`, Q1 is 2, Q3 is 4 and only `100` is flagged. -/
theorem c2_iqr_bounds :
    (∀ (col : Col) (kq q1 q3 : ℚ) (i : Nat),
      quantileQ (presentVals col) (1/4) = some q1 →
      quantileQ (presentVals col) (3/4) = some q3 →
      ((outlierMaskIqr col kq)[i]? = some true ↔
        ∃ v, col[i]? = some (some v) ∧
          (v < q1 - kq * (q3 - q1) ∨ v > q3 + kq * (q3 - q1)))) ∧
    quantileQ [1, 2, 3, 4, 100] (1/4) = some 2 ∧
    quantileQ [1, 2, 3, 4, 100] (3/4) = some 4 ∧
    outlierMaskIqr [some 1, some 2, some 3, some 4, some 100] (3/2)
      = [false, false, false, false, true] := by
  refine ⟨?_, quantileQ_q1_1234100, quantileQ_q3_1234100,
    outlierMaskIqr_1234100⟩
  intro col kq q1 q3 i h1 h3
  unfold outlierMaskIqr
  rw [h1, h3, List.getElem?_map]
  cases hc : col[i]? with
  | none => simp
  | some x =>
    cases x with
    | none => simp
    | some v => simp

/-! ### C6: validation errors come first and leave the table unchanged -/

theorem validateK_of_num_none (k : PyVal) (hk : k.num? = none) :
    validateK k = some .typeError := by
  cases k <;> simp [PyVal.num?] at hk ⊢ <;> rfl

/-- C6: in all three operations a `method` that is neither numeric nor
a string raises `TypeError`, a string `method` outside the allowed set
raises `ValueError`, and in the outlier operations a non-numeric `k`
raises `TypeError`; each of these is raised by the validation prologue,
before the fill loop, so the stored table is returned unchanged. -/
theorem c6_validation_before_mutation (f : State) (m k : PyVal) (s : String)
    (rs : Nat → ℚ) (sq : ℚ → ℚ) :
    (m = .other →
      fillnan f m rs = (f.data, some .typeError) ∧
      filloutlier_iqr f m k rs = (f.data, some .typeError) ∧
      filloutlier_sigma sq f m k rs = (f.data, some .typeError)) ∧
    (m = .str s → s ∉ allowedNan →
      fillnan f m rs = (f.data, some .valueError)) ∧
    (m = .str s → s ∉ allowedOut → validateK k = none →
      filloutlier_iqr f m k rs = (f.data, some .valueError) ∧
      filloutlier_sigma sq f m k rs = (f.data, some .valueError)) ∧
    (k.num? = none →
      filloutlier_iqr f m k rs = (f.data, some .typeError) ∧
      filloutlier_sigma sq f m k rs = (f.data, some .typeError)) := by
  refine ⟨?_, ?_, ?_, ?_⟩
  · rintro rfl
    exact ⟨rfl, rfl, rfl⟩
  · rintro rfl hs
    simp [fillnan, validateMethod, hs]
  · rintro rfl hs hk
    constructor
    · simp [filloutlier_iqr, validateMethod, hs, hk]
    · simp [filloutlier_sigma, validateMethod, hs, hk]
  · intro hk
    have hvk := validateK_of_num_none k hk
    constructor
    · cases m
      case other => rfl
      all_goals simp [filloutlier_iqr, hvk]
    · cases m
      case other => rfl
      all_goals simp [filloutlier_sigma, hvk]

/-! ### C7: the defensive copy -/

theorem runOp_getElem_ne (h : Heap) (fr : Ref) (op : Op) (a : Nat)
    (hne : fr.addr ≠ a) : (runOp h fr op)[a]? = h[a]? := by
  unfold runOp
  cases op <;> exact List.getElem?_set_ne hne

theorem runOps_getElem_ne (fr : Ref) (a : Nat) (hne : fr.addr ≠ a) :
    ∀ (ops : List Op) (h : Heap), (runOps h fr ops)[a]? = h[a]? := by
  intro ops
  induction ops with
  | nil => intro h; rfl
  | cons op ops ih =>
    intro h
    rw [runOps, ih, runOp_getElem_ne h fr op a hne]

/-- C7: construction stores an independent deep copy of the caller's
table — the new instance's cell holds the same table value, in fresh
storage — and every subsequent fill operation writes only the
instance's own cell, so for every sequence of fill operations the
caller's original table object is never mutated. -/
theorem c7_deep_copy_caller_never_mutated (h : Heap) (a : Nat)
    (cols : List String) (ops : List Op) (ha : a < h.length) :
    ((init h a cols).1.getD (init h a cols).2.addr [] = h.getD a []) ∧
    (runOps (init h a cols).1 (init h a cols).2 ops)[a]? = h[a]? := by
  constructor
  · simp [init]
  · rw [runOps_getElem_ne _ a (by simp [init]; omega) ops]
    simp only [init]
    rw [List.getElem?_append, if_pos ha]

/-! ### Concrete runs used by the example instantiations -/

theorem fillnan_zero_run :
    fillnan ⟨[("a", [none, some 1])], ["a"]⟩ (.int 0) (fun _ => 0)
      = ([("a", [some 0, some 1])], none) := by
  simp [fillnan, validateMethod, colLoop, getCol, setCol, fillnanCol, fillNone]

theorem fillnan_mean_run :
    fillnan ⟨[("a", [some 1, none, some 3])], ["a"]⟩ (.str "mean") (fun _ => 0)
      = ([("a", [some 1, some 2, some 3])], none) := by
  simp [fillnan, validateMethod, allowedNan, colLoop, getCol, setCol, fillnanCol,
    fillNone, presentVals, meanQ]
  norm_num

theorem fillnan_rdbr_run :
    fillnan ⟨[("a", [some 2, none])], ["a"]⟩ (.str "rdbr") (fun _ => 1/2)
      = ([("a", [some 2, some 2])], none) := by
  simp [fillnan, validateMethod, allowedNan, colLoop, getCol, setCol, fillnanCol,
    nanCount, valueCountsNorm, dedupFirst, insertByCount, drawsN, choicesOne,
    cumsum, presentVals]
  norm_num
  rfl

theorem fillnan_mode_run :
    fillnan ⟨[("a", [some 3, some 1, some 1, some 3, none])], ["a"]⟩ (.str "mode")
        (fun _ => 0)
      = ([("a", [some 3, some 1, some 1, some 3, some 1])], none) := by
  have hm : modeFirst (presentVals [some 3, some 1, some 1, some 3, none])
      = some 1 := by
    simp [modeFirst, modalCands, dedupFirst, presentVals, listMin]
  simp [fillnan, validateMethod, allowedNan, colLoop, getCol, setCol, fillnanCol,
    hm, fillNone]

theorem iqr_mean_run :
    filloutlier_iqr ⟨[("a", [some 1, some 2, some 3, some 4, some 100])], ["a"]⟩
        (.str "mean") (.float (3/2)) (fun _ => 0)
      = ([("a", [some 1, some 2, some 3, some 4, some (5/2)])], none) := by
  simp [filloutlier_iqr, validateMethod, validateK, allowedOut, colLoop, getCol,
    setCol, filloutlierIqrCol, fillOutliersCol, outlierMaskIqr_1234100,
    unmaskedPresent, fillMask, presentVals, PyVal.num?, meanQ]
  norm_num

theorem sigma_mean_run :
    filloutlier_sigma (fun _ => 5)
        ⟨[("a", [some 0, some 0, some 10])], ["a"]⟩
        (.str "mean") (.int 1) (fun _ => 0)
      = ([("a", [some 0, some 0, some 0])], none) := by
  have hmean : meanQ [(0:ℚ), 0, 10] = some (10/3) := by
    rw [meanQ, if_neg (by simp)]
    norm_num
  have hstd : stdQ (fun _ => 5) [(0:ℚ), 0, 10] = some 5 := by
    norm_num [stdQ, hmean]
  have hmask : outlierMaskSigma (fun _ => 5) [some 0, some 0, some 10] 1
      = [false, false, true] := by
    norm_num [outlierMaskSigma, presentVals, hmean, hstd]
  simp [filloutlier_sigma, validateMethod, validateK, allowedOut, colLoop, getCol,
    setCol, filloutlierSigmaCol, fillOutliersCol, hmask,
    unmaskedPresent, fillMask, presentVals, PyVal.num?, meanQ]

theorem fillnan_zero_run2 :
    fillnan ⟨[("a", [none, some 1]), ("b", [some 5])], ["a"]⟩ (.int 0)
        (fun _ => 0)
      = ([("a", [some 0, some 1]), ("b", [some 5])], none) := by
  simp [fillnan, validateMethod, colLoop, getCol, setCol, fillnanCol, fillNone]

/-! ### Instantiations of the claim theorems at concrete inputs -/

/-- C9 at a concrete table: the second `fillnan(0)` call returns the
table of the first call unchanged. -/
theorem c9_fillnan_zero_idempotent_witness :
    fillnan { data := [("a", [some 0, some 1])], columns := ["a"] } (.int 0)
        (fun _ => 0)
      = ([("a", [some 0, some 1])], none) :=
  c9_fillnan_zero_idempotent ⟨[("a", [none, some 1])], ["a"]⟩ (fun _ => 0)
    (fun _ => 0) [("a", [some 0, some 1])] fillnan_zero_run

/-- C3 at a concrete table: the missing cell of `[1, NaN, 3]` is filled
with the pre-call mean 2. -/
theorem c3_mean_fill_witness :
    meanQ (presentVals [some 1, none, some 3])
        = some ((presentVals [some 1, none, some 3]).sum /
            ((presentVals [some 1, none, some 3]).length : ℚ)) ∧
    ∀ i : Nat, ([some 1, none, some 3] : Col)[i]? = some none →
      cellAt [("a", [some 1, some 2, some 3])] "a" i
        = some (some ((presentVals [some 1, none, some 3]).sum /
            ((presentVals [some 1, none, some 3]).length : ℚ))) :=
  c3_mean_fill ⟨[("a", [some 1, none, some 3])], ["a"]⟩ (fun _ => 0)
    [("a", [some 1, some 2, some 3])] "a" [some 1, none, some 3]
    (by simp) (by simp) (by simp [getCol]) (by simp [presentVals])
    fillnan_mean_run

/-- C8 at a concrete table: for `[3, 1, 1, 3, NaN]` the values 1 and 3
tie at multiplicity two and the fill uses the first modal value 1. -/
theorem c8_mode_fill_witness :
    ∃ v, modeFirst (presentVals [some 3, some 1, some 1, some 3, none])
        = some v ∧
      v ∈ presentVals [some 3, some 1, some 1, some 3, none] ∧
      (∀ w ∈ presentVals [some 3, some 1, some 1, some 3, none],
        (presentVals [some 3, some 1, some 1, some 3, none]).count w ≤
          (presentVals [some 3, some 1, some 1, some 3, none]).count v) ∧
      (∀ w ∈ presentVals [some 3, some 1, some 1, some 3, none],
        (presentVals [some 3, some 1, some 1, some 3, none]).count w =
          (presentVals [some 3, some 1, some 1, some 3, none]).count v →
          v ≤ w) ∧
      ∀ i : Nat, ([some 3, some 1, some 1, some 3, none] : Col)[i]?
          = some none →
        cellAt [("a", [some 3, some 1, some 1, some 3, some 1])] "a" i
          = some (some v) :=
  c8_mode_fill ⟨[("a", [some 3, some 1, some 1, some 3, none])], ["a"]⟩
    (fun _ => 0) [("a", [some 3, some 1, some 1, some 3, some 1])] "a"
    [some 3, some 1, some 1, some 3, none]
    (by simp) (by simp) (by simp [getCol]) fillnan_mode_run

/-- C1 at a concrete table: the one missing cell of `[2, NaN]` is
filled by one weighted draw, whose value 2 comes from the present
values. -/
theorem c1_rdbr_fill_witness :
    ∃ ctr vs,
      drawsN (valueCountsNorm (presentVals [some 2, none])) (fun _ => 1/2) ctr
        (nanCount [some 2, none]) = some vs ∧
      vs.length = nanCount [some 2, none] ∧
      (∀ v ∈ vs, v ∈ presentVals [some 2, none]) ∧
      getCol [("a", [some 2, some 2])] "a"
        = some (fillNoneSeq [some 2, none] vs) ∧
      ∀ i : Nat, ([some 2, none] : Col)[i]? = some none →
        ∃ v ∈ presentVals [some 2, none],
          cellAt [("a", [some 2, some 2])] "a" i = some (some v) :=
  c1_rdbr_fill ⟨[("a", [some 2, none])], ["a"]⟩ (fun _ => 1/2)
    [("a", [some 2, some 2])] "a" [some 2, none]
    (by simp) (by simp) (by simp [getCol]) fillnan_rdbr_run

/-- C2 at the spec's concrete column: the flag of the cell holding 100
matches the strict-bounds characterization, and the full mask flags
exactly that cell. -/
theorem c2_iqr_bounds_witness :
    (((outlierMaskIqr [some 1, some 2, some 3, some 4, some 100] (3/2))[4]?
        = some true) ↔
      ∃ v, ([some 1, some 2, some 3, some 4, some 100] : Col)[4]?
          = some (some v) ∧
        (v < 2 - (3/2) * (4 - 2) ∨ v > 4 + (3/2) * (4 - 2))) ∧
    outlierMaskIqr [some 1, some 2, some 3, some 4, some 100] (3/2)
      = [false, false, false, false, true] :=
  ⟨c2_iqr_bounds.1 [some 1, some 2, some 3, some 4, some 100] (3/2) 2 4 4
      c2_iqr_bounds.2.1 c2_iqr_bounds.2.2.1,
    c2_iqr_bounds.2.2.2⟩

/-- C4 at concrete tables: the IQR call with `"mean"` replaces the
flagged 100 with the in-bound mean 5/2, and the sigma call with
`"mean"` replaces the flagged 10 with the in-bound mean 0 — both equal
to the mask-and-inlier-statistic description. -/
theorem c4_outlier_stats_from_inliers_witness :
    filloutlier_iqr ⟨[("a", [some 1, some 2, some 3, some 4, some 100])], ["a"]⟩
        (.str "mean") (.float (3/2)) (fun _ => 0)
      = ([("a", [some 1, some 2, some 3, some 4, some (5/2)])], none) ∧
    getCol [("a", [some 1, some 2, some 3, some 4, some (5/2)])] "a"
      = some (fillMask [some 1, some 2, some 3, some 4, some 100]
          (outlierMaskIqr [some 1, some 2, some 3, some 4, some 100] (3/2))
          (meanQ (unmaskedPresent [some 1, some 2, some 3, some 4, some 100]
            (outlierMaskIqr [some 1, some 2, some 3, some 4, some 100]
              (3/2))))) ∧
    filloutlier_sigma (fun _ => 5) ⟨[("a", [some 0, some 0, some 10])], ["a"]⟩
        (.str "mean") (.int 1) (fun _ => 0)
      = ([("a", [some 0, some 0, some 0])], none) ∧
    getCol [("a", [some 0, some 0, some 0])] "a"
      = some (fillMask [some 0, some 0, some 10]
          (outlierMaskSigma (fun _ => 5) [some 0, some 0, some 10] 1)
          (meanQ (unmaskedPresent [some 0, some 0, some 10]
            (outlierMaskSigma (fun _ => 5) [some 0, some 0, some 10] 1)))) :=
  ⟨iqr_mean_run,
    (c4_outlier_stats_from_inliers
      ⟨[("a", [some 1, some 2, some 3, some 4, some 100])], ["a"]⟩
      (.float (3/2)) (3/2) (fun _ => 0) (fun _ => 5) "a"
      [some 1, some 2, some 3, some 4, some 100]
      [("a", [some 1, some 2, some 3, some 4, some (5/2)])]
      (by simp) (by simp) (by simp [getCol]) (by simp [PyVal.num?])).1
      iqr_mean_run,
    sigma_mean_run,
    (c4_outlier_stats_from_inliers
      ⟨[("a", [some 0, some 0, some 10])], ["a"]⟩
      (.int 1) 1 (fun _ => 0) (fun _ => 5) "a"
      [some 0, some 0, some 10]
      [("a", [some 0, some 0, some 0])]
      (by simp) (by simp) (by simp [getCol])
      (by simp [PyVal.num?])).2.2.2.1 sigma_mean_run⟩

/-- C5 at a concrete table: the missing first cell stays missing under
both outlier operations, and the masks only flag present cells. -/
theorem c5_outlier_missing_preserved_witness :
    cellAt (filloutlier_iqr ⟨[("a", [none, some 1])], ["a"]⟩ (.int 9)
        (.float 1) (fun _ => 0)).1 "a" 0 = some none ∧
    cellAt (filloutlier_sigma (fun _ => 0) ⟨[("a", [none, some 1])], ["a"]⟩
        (.int 9) (.float 1) (fun _ => 0)).1 "a" 0 = some none ∧
    (∀ (col : Col) (kq : ℚ) (j : Nat),
      (outlierMaskIqr col kq)[j]? = some true →
        ∃ v, col[j]? = some (some v)) ∧
    (∀ (col : Col) (kq : ℚ) (j : Nat),
      (outlierMaskSigma (fun _ => 0) col kq)[j]? = some true →
        ∃ v, col[j]? = some (some v)) :=
  c5_outlier_missing_preserved ⟨[("a", [none, some 1])], ["a"]⟩ (.int 9)
    (.float 1) (fun _ => 0) (fun _ => 0) "a" 0 (by simp [cellAt, getCol])

/-- C6 at concrete arguments: a non-numeric, non-string `method` gives
`TypeError`, a bad string `method` gives `ValueError` (in `fillnan` and,
with a numeric `k`, in `filloutlier_iqr`), and a non-numeric `k` gives
`TypeError`; each call returns the stored table unchanged. -/
theorem c6_validation_before_mutation_witness :
    fillnan ⟨[("a", [none])], ["a"]⟩ .other (fun _ => 0)
      = ([("a", [none])], some .typeError) ∧
    fillnan ⟨[("a", [none])], ["a"]⟩ (.str "bogus") (fun _ => 0)
      = ([("a", [none])], some .valueError) ∧
    filloutlier_iqr ⟨[("a", [none])], ["a"]⟩ (.str "bogus") (.int 1)
        (fun _ => 0)
      = ([("a", [none])], some .valueError) ∧
    filloutlier_iqr ⟨[("a", [none])], ["a"]⟩ (.str "mean") (.str "x")
        (fun _ => 0)
      = ([("a", [none])], some .typeError) :=
  ⟨((c6_validation_before_mutation ⟨[("a", [none])], ["a"]⟩ .other (.int 1)
      "z" (fun _ => 0) (fun _ => 0)).1 rfl).1,
    (c6_validation_before_mutation ⟨[("a", [none])], ["a"]⟩ (.str "bogus")
      (.int 1) "bogus" (fun _ => 0) (fun _ => 0)).2.1 rfl (by decide),
    ((c6_validation_before_mutation ⟨[("a", [none])], ["a"]⟩ (.str "bogus")
      (.int 1) "bogus" (fun _ => 0) (fun _ => 0)).2.2.1 rfl (by decide)
      rfl).1,
    ((c6_validation_before_mutation ⟨[("a", [none])], ["a"]⟩ (.str "mean")
      (.str "x") "mean" (fun _ => 0) (fun _ => 0)).2.2.2 rfl).1⟩

/-- C7 at a concrete heap: after construction and one `fillnan(0)`
call the caller's cell still holds its original table. -/
theorem c7_deep_copy_caller_never_mutated_witness :
    ((init [[("a", [some 1])]] 0 ["a"]).1.getD
        (init [[("a", [some 1])]] 0 ["a"]).2.addr []
      = ([[("a", [some 1])]] : Heap).getD 0 []) ∧
    (runOps (init [[("a", [some 1])]] 0 ["a"]).1
        (init [[("a", [some 1])]] 0 ["a"]).2
        [.nan (.int 0) (fun _ => 0)])[0]?
      = ([[("a", [some 1])]] : Heap)[0]? :=
  c7_deep_copy_caller_never_mutated [[("a", [some 1])]] 0 ["a"]
    [.nan (.int 0) (fun _ => 0)] (by decide)

/-- C10 at a concrete two-column table: `fillnan(0)` on target column
`"a"` succeeds, leaves the non-target column `"b"` untouched and keeps
the present cell of `"a"`. -/
theorem c10_frame_conditions_witness :
    fillnan ⟨[("a", [none, some 1]), ("b", [some 5])], ["a"]⟩ (.int 0)
        (fun _ => 0)
      = ([("a", [some 0, some 1]), ("b", [some 5])], none) ∧
    getCol (fillnan ⟨[("a", [none, some 1]), ("b", [some 5])], ["a"]⟩ (.int 0)
        (fun _ => 0)).1 "b"
      = getCol ([("a", [none, some 1]), ("b", [some 5])] : Table) "b" ∧
    cellAt [("a", [some 0, some 1]), ("b", [some 5])] "a" 1
      = some (some 1) := by
  have hth := c10_frame_conditions
    ⟨[("a", [none, some 1]), ("b", [some 5])], ["a"]⟩ (.int 0) (.float 1) 1
    (fun _ => 0) (fun _ => 0) (by simp) (by simp [PyVal.num?])
  exact ⟨fillnan_zero_run2,
    (hth.1 "b" (by simp)).1,
    (hth.2 [("a", [some 0, some 1]), ("b", [some 5])] "a" [none, some 1] 1 1
      (by simp) (by simp [getCol])).1 fillnan_zero_run2 (by simp)⟩

end Filler
